import Mathlib

/-!
# Verification of the copper-coil coordinate generator geometry engine

Shallow embedding of the geometry engine of `app.py` (turn generation,
path flattening, inner-edge offsetting, regrouping, export assembly).
Points are pairs of rationals; the Python floats are modelled as exact
rationals and the source's `1e-12` tolerance as the rational `1/10^12`.
Python exceptions are modelled with `Except`.
-/

namespace Coil

/-- A 2-D point, as in the source's `(x, y)` tuples. -/
abbrev Point := ℚ × ℚ

/-- The tolerance `1e-12` used by `inner_path_from_outer` in the source. -/
def eps : ℚ := 1 / 10 ^ 12

/-- The exceptions the engine can raise: the two `ValueError`s of
`inner_path_from_outer` and the `ValueError` Python raises when a turn
does not unpack into exactly four points. -/
inductive CoilError where
  | nonAxisAligned
  | degenerate
  | unpack
  deriving DecidableEq, Repr

/-- Segment orientation tag, the source's `"v"` / `"h"` strings. -/
inductive Ori where
  | v
  | h
  deriving DecidableEq, Repr

/-- An offset segment as built by `inner_path_from_outer`:
`((x1+offx, y1+offy), (x2+offx, y2+offy), ori)`. -/
structure Seg where
  p1 : Point
  p2 : Point
  ori : Ori
  deriving DecidableEq, Repr

/-- Body of the `compute_coords` loop for one turn index `t` (1-based):
the four corner points `[P1, P2, P3, P4]` appended for that turn. -/
def turnCorners (Lx By d : ℚ) (t : ℕ) : List Point :=
  if t = 1 then
    [(0, 0), (0, By), (Lx, By), (Lx, 0)]
  else
    let i : ℚ := (t - 1 : ℕ)
    [(i * d, (i - 1) * d), (i * d, By - i * d), (Lx - i * d, By - i * d), (Lx - i * d, i * d)]

/-- `compute_coords(Lx, By, N, width, gap)`: the four corner points of each
rectangular turn, outermost first, for `t` in `1..N`. -/
def compute_coords (Lx By : ℚ) (N : ℕ) (width gap : ℚ) : List (List Point) :=
  (List.range N).map (fun k => turnCorners Lx By (width + gap) (k + 1))

/-- `outer_path_from_turns(turns)`: flatten the per-turn corner points into a
single polyline `P1 -> P2 -> P3 -> P4` per turn.  A turn that does not unpack
into exactly four points raises (Python `ValueError` on tuple unpacking). -/
def outer_path_from_turns : List (List Point) → Except CoilError (List Point)
  | [] => .ok []
  | [P1, P2, P3, P4] :: rest =>
    match outer_path_from_turns rest with
    | .ok p => .ok (P1 :: P2 :: P3 :: P4 :: p)
    | .error e => .error e
  | _ :: _ => .error .unpack

/-- Helper for `build_spiral_path_from_turns`: the source's `enumerate` loop,
whose `idx == 0` and `else` branches have identical bodies. -/
def buildSpiralGo : ℕ → List (List Point) → Except CoilError (List Point)
  | _, [] => .ok []
  | idx, [P1, P2, P3, P4] :: rest =>
    if idx = 0 then
      match buildSpiralGo (idx + 1) rest with
      | .ok p => .ok (P1 :: P2 :: P3 :: P4 :: p)
      | .error e => .error e
    else
      match buildSpiralGo (idx + 1) rest with
      | .ok p => .ok (P1 :: P2 :: P3 :: P4 :: p)
      | .error e => .error e
  | _, _ :: _ => .error .unpack

/-- `build_spiral_path_from_turns(turns)`: the second flattener in the source. -/
def build_spiral_path_from_turns (turns : List (List Point)) : Except CoilError (List Point) :=
  buildSpiralGo 0 turns

/-- One iteration of the segment loop of `inner_path_from_outer`: validate the
segment from `a` to `b`, compute its right-hand offset and orientation tag. -/
def mkSeg (w : ℚ) (a b : Point) : Except CoilError Seg :=
  let dx := b.1 - a.1
  let dy := b.2 - a.2
  if eps < |dx| ∧ eps < |dy| then
    .error .nonAxisAligned
  else if |dx| < eps ∧ |dy| < eps then
    .error .degenerate
  else if |dx| < eps then
    let off : Point := if 0 < dy then (w, 0) else (-w, 0)
    .ok ⟨(a.1 + off.1, a.2 + off.2), (b.1 + off.1, b.2 + off.2), .v⟩
  else
    let off : Point := if 0 < dx then (0, -w) else (0, w)
    .ok ⟨(a.1 + off.1, a.2 + off.2), (b.1 + off.1, b.2 + off.2), .h⟩

/-- The segment loop of `inner_path_from_outer` over consecutive point pairs,
raising at the first invalid segment exactly as the Python loop does. -/
def segsOf (w : ℚ) : List Point → Except CoilError (List Seg)
  | a :: b :: rest =>
    match mkSeg w a b with
    | .error e => .error e
    | .ok s =>
      match segsOf w (b :: rest) with
      | .error e => .error e
      | .ok tl => .ok (s :: tl)
  | _ => .ok []

/-- The corner-reconstruction rule of `inner_path_from_outer` for two
consecutive offset segments. -/
def joinVertex (s t : Seg) : Point :=
  if s.ori = t.ori then t.p1
  else if s.ori = .v then (s.p1.1, t.p1.2)
  else (t.p1.1, s.p1.2)

/-- The vertex-reconstruction loop of `inner_path_from_outer`: one join vertex
per consecutive pair of offset segments, then the last segment's end point. -/
def innerFromSegs : Seg → List Seg → List Point
  | prev, [] => [prev.p2]
  | prev, t :: rest => joinVertex prev t :: innerFromSegs t rest

/-- `inner_path_from_outer(outer_path, width)`: offset the polyline to the
inside edge.  Returns `[]` for paths of length `< 2`; otherwise builds the
offset segments (raising on the first invalid one) and reconstructs the inner
vertex list.  The `.ok []` branch of the match is unreachable for length `≥ 2`
but kept for totality. -/
def inner_path_from_outer (outer : List Point) (w : ℚ) : Except CoilError (List Point) :=
  if outer.length < 2 then .ok []
  else
    match segsOf w outer with
    | .error e => .error e
    | .ok [] => .ok []
    | .ok (s :: rest) => .ok (s.p1 :: innerFromSegs s rest)

/-- `inner_turns_from_inner_path(inner_path, N)`: regroup into blocks of 4,
`inner_path[4*k : 4*k+4]` for `k` in `0..N-1` (Python slice semantics: a slice
past the end is truncated or empty, never an error). -/
def inner_turns_from_inner_path (inner_path : List Point) (N : ℕ) : List (List Point) :=
  (List.range N).map (fun k => (inner_path.drop (4 * k)).take 4)

/-- The export-assembly block of the `index` route: all outer points, then the
reversed inner points when `include_inner` is set and the inner path is
non-empty, then the first outer point again when the outer path is non-empty. -/
def assemble_export (outer_path inner_path : List Point) (include_inner : Bool) : List Point :=
  let all1 := outer_path
  let all2 :=
    if include_inner = true ∧ inner_path ≠ [] then all1 ++ inner_path.reverse else all1
  match outer_path with
  | [] => all2
  | p :: _ => all2 ++ [p]

/-- Second definition for the refinement claim C3, following the spec's words:
classify the segment (vertical when the x-change is below the epsilon), pick
the offset vector by the right-hand-side-of-travel rule, and translate both
endpoints of the segment by it. -/
def specOffsetSeg (w : ℚ) (a b : Point) : Seg :=
  if |b.1 - a.1| < eps then
    let off : Point := if 0 < b.2 - a.2 then (w, 0) else (-w, 0)
    ⟨(a.1 + off.1, a.2 + off.2), (b.1 + off.1, b.2 + off.2), .v⟩
  else
    let off : Point := if 0 < b.1 - a.1 then (0, -w) else (0, w)
    ⟨(a.1 + off.1, a.2 + off.2), (b.1 + off.1, b.2 + off.2), .h⟩

/-- Second definition for the refinement claim C3, following the spec's words
for corner reconstruction: for adjacent offset segments of different
orientation take the vertical one's x and the horizontal one's y; for the same
orientation take the start point of the later segment. -/
def specCorner (s t : Seg) : Point :=
  match s.ori, t.ori with
  | .v, .h => (s.p1.1, t.p1.2)
  | .h, .v => (t.p1.1, s.p1.2)
  | _, _ => t.p1

/-- Spec-side interior-vertex walk: one corner per adjacent pair of offset
segments, then the last offset segment's end point. -/
def specJoin : Seg → List Seg → List Point
  | prev, [] => [prev.p2]
  | prev, t :: rest => specCorner prev t :: specJoin t rest

/-- Spec-side inner path for claim C3: offset every consecutive segment, walk
the corners, prepend the first offset segment's start point (the appended last
end point is in `specJoin`). -/
def offset_inner_spec (w : ℚ) (p : List Point) : List Point :=
  match (p.zip p.tail).map (fun ab => specOffsetSeg w ab.1 ab.2) with
  | [] => []
  | s :: rest => s.p1 :: specJoin s rest

/-- Statement vocabulary for C4: both coordinates change by strictly more than
the epsilon (the non-axis-aligned condition). -/
def bothChange (a b : Point) : Prop := eps < |b.1 - a.1| ∧ eps < |b.2 - a.2|

/-- Statement vocabulary for the amended C4: the error determined by the
earliest invalid consecutive pair of points, non-axis-alignment checked before
degeneracy on each pair, `none` when every pair is valid. -/
def firstSegError : List Point → Option CoilError
  | a :: b :: rest =>
    if eps < |b.1 - a.1| ∧ eps < |b.2 - a.2| then some .nonAxisAligned
    else if |b.1 - a.1| < eps ∧ |b.2 - a.2| < eps then some .degenerate
    else firstSegError (b :: rest)
  | _ => none

/-- Statement vocabulary for C9: two consecutive path points differ in exactly
one coordinate, and in that coordinate by strictly more than the epsilon. -/
def goodPair (a b : Point) : Prop :=
  (a.1 = b.1 ∧ eps < |b.2 - a.2|) ∨ (a.2 = b.2 ∧ eps < |b.1 - a.1|)

/-! ## Theorems -/

lemma eps_pos : (0 : ℚ) < eps := by norm_num [eps]

/-- Claim C1 (counterexample): with `Lx=1, By=1, width=1, gap=1, N=5` the turn
generator does not raise any invalid-configuration error: it returns a full
list of 5 turns, the fifth being the inverted rectangle
`(8,6),(8,-7),(-7,-7),(-7,8)` whose `x_right_in = -7` is not greater than
`x_in = 8`. -/
theorem C1_counterexample :
    (compute_coords 1 1 5 1 1).length = 5 ∧
    (compute_coords 1 1 5 1 1)[4]? =
      some [((8:ℚ), (6:ℚ)), ((8:ℚ), (-7:ℚ)), ((-7:ℚ), (-7:ℚ)), ((-7:ℚ), (8:ℚ))] ∧
    (-7 : ℚ) ≤ 8 := by
  refine ⟨by norm_num [compute_coords], ?_, by norm_num⟩
  norm_num [compute_coords, turnCorners, List.range_succ]

/-- Claim C1 (amended): `compute_coords` performs no validity check at all: it
always returns exactly `N` turns, for every configuration, degenerate ones
included. -/
theorem C1_amended_no_validation (Lx By width gap : ℚ) (N : ℕ) :
    (compute_coords Lx By N width gap).length = N := by
  simp [compute_coords]

/-- Claim C2: `compute_coords` returns exactly `N` turns; turn 1 is the full
outer rectangle, and turn `t > 1` with `i = t-1`, `d = width+gap` has corners
`P1=(i*d,(i-1)*d)`, `P2=(i*d,By-i*d)`, `P3=(Lx-i*d,By-i*d)`, `P4=(Lx-i*d,i*d)`:
the bottom-left corner's y uses index `i-1` while the bottom-right uses `i`. -/
theorem C2_turn_corners (Lx By width gap : ℚ) (N : ℕ) (hN : 1 ≤ N) :
    (compute_coords Lx By N width gap).length = N ∧
    (compute_coords Lx By N width gap)[0]? =
      some [((0:ℚ), (0:ℚ)), ((0:ℚ), By), (Lx, By), (Lx, (0:ℚ))] ∧
    ∀ t : ℕ, 2 ≤ t → t ≤ N →
      (compute_coords Lx By N width gap)[t - 1]? =
        some [(((t:ℚ) - 1) * (width + gap), ((t:ℚ) - 2) * (width + gap)),
              (((t:ℚ) - 1) * (width + gap), By - ((t:ℚ) - 1) * (width + gap)),
              (Lx - ((t:ℚ) - 1) * (width + gap), By - ((t:ℚ) - 1) * (width + gap)),
              (Lx - ((t:ℚ) - 1) * (width + gap), ((t:ℚ) - 1) * (width + gap))] := by
  refine ⟨by simp [compute_coords], ?_, ?_⟩
  · rw [compute_coords, List.getElem?_map, List.getElem?_range (by omega)]
    simp [turnCorners]
  · intro t h2 hle
    rw [compute_coords, List.getElem?_map, List.getElem?_range (by omega)]
    simp only [Option.map_some']
    have ht : t - 1 + 1 = t := by omega
    rw [ht]
    simp only [turnCorners]
    rw [if_neg (show ¬ t = 1 by omega)]
    have hc : ((t - 1 : ℕ) : ℚ) = (t : ℚ) - 1 := by
      push_cast [Nat.cast_sub (by omega : 1 ≤ t)]
      ring
    simp only [hc, Option.some.injEq, List.cons.injEq, Prod.mk.injEq, and_true]
    norm_num
    ring_nf
    tauto

/-- Claim C2 (witness): the concrete instance `Lx=10, By=6, width=1, gap=1,
N=2`, checked at turn 2. -/
theorem C2_turn_corners_witness :
    (compute_coords 10 6 2 1 1).length = 2 ∧
    (compute_coords 10 6 2 1 1)[0]? =
      some [((0:ℚ), (0:ℚ)), ((0:ℚ), (6:ℚ)), ((10:ℚ), (6:ℚ)), ((10:ℚ), (0:ℚ))] ∧
    (compute_coords 10 6 2 1 1)[2 - 1]? =
      some [((((2:ℕ):ℚ) - 1) * (1 + 1), (((2:ℕ):ℚ) - 2) * (1 + 1)),
            ((((2:ℕ):ℚ) - 1) * (1 + 1), 6 - (((2:ℕ):ℚ) - 1) * (1 + 1)),
            (10 - (((2:ℕ):ℚ) - 1) * (1 + 1), 6 - (((2:ℕ):ℚ) - 1) * (1 + 1)),
            (10 - (((2:ℕ):ℚ) - 1) * (1 + 1), (((2:ℕ):ℚ) - 1) * (1 + 1))] := by
  have h := C2_turn_corners 10 6 1 1 2 (by omega)
  exact ⟨h.1, h.2.1, h.2.2 2 (by omega) (by omega)⟩

/-- Claim C8 (counterexample): regrouping an inner path of length `1 ≠ 4*2`
with `N = 2` surfaces no error at all: it silently returns a truncated block
and an empty block. -/
theorem C8_counterexample :
    inner_turns_from_inner_path [((0:ℚ), (0:ℚ))] 2 = [[((0:ℚ), (0:ℚ))], []] := by
  norm_num [inner_turns_from_inner_path, List.range_succ]

/-- Claim C8 (amended): `inner_turns_from_inner_path` performs no validation:
for every inner path and `N` it totally returns `N` slice blocks whose
concatenation is the first `4*N` points of the path (so a mismatched length
silently truncates or pads with empty blocks, and no error is raised). -/
theorem C8_amended_slices (inner_path : List Point) (N : ℕ) :
    (inner_turns_from_inner_path inner_path N).length = N ∧
    (inner_turns_from_inner_path inner_path N).flatten = inner_path.take (4 * N) := by
  constructor
  · simp [inner_turns_from_inner_path]
  · induction N with
    | zero => simp [inner_turns_from_inner_path]
    | succ n ih =>
      rw [inner_turns_from_inner_path, List.range_succ, List.map_append, List.flatten_append,
        show ((List.range n).map fun k => (inner_path.drop (4 * k)).take 4) =
          inner_turns_from_inner_path inner_path n from rfl, ih]
      simp only [List.map_cons, List.map_nil, List.flatten_cons, List.flatten_nil,
        List.append_nil]
      rw [show 4 * (n + 1) = 4 * n + 4 from by ring, List.take_add]

/-- Helper for C10: the enumerate index of `build_spiral_path_from_turns` is
irrelevant because both branches of its `if idx == 0` have the same body. -/
lemma buildSpiralGo_eq (turns : List (List Point)) :
    ∀ idx, buildSpiralGo idx turns = outer_path_from_turns turns := by
  induction turns with
  | nil => intro idx; rfl
  | cons hd tl ih =>
    intro idx
    rcases hd with _ | ⟨a, _ | ⟨b, _ | ⟨c, _ | ⟨d, _ | ⟨e, r⟩⟩⟩⟩⟩
    · rfl
    · rfl
    · rfl
    · rfl
    · cases hout : outer_path_from_turns tl with
      | ok p => simp [buildSpiralGo, outer_path_from_turns, hout, ih]
      | error e2 => simp [buildSpiralGo, outer_path_from_turns, hout, ih]
    · rfl

/-- Claim C10: the two flattening functions `outer_path_from_turns` and
`build_spiral_path_from_turns` agree on every list of turns (they return the
same point sequence, and fail identically on a malformed turn). -/
theorem C10_flatteners_agree (turns : List (List Point)) :
    build_spiral_path_from_turns turns = outer_path_from_turns turns :=
  buildSpiralGo_eq turns 0

/-- Helper for C7: regrouping one more block peels off the first four points. -/
lemma inner_turns_succ (p : List Point) (n : ℕ) :
    inner_turns_from_inner_path p (n + 1) =
      p.take 4 :: inner_turns_from_inner_path (p.drop 4) n := by
  rw [inner_turns_from_inner_path, List.range_succ_eq_map, List.map_cons, List.map_map]
  congr 1
  rw [inner_turns_from_inner_path]
  refine List.map_congr_left ?_
  intro k _
  simp only [Function.comp_apply]
  have h4 : 4 * Nat.succ k = 4 + 4 * k := by omega
  rw [List.drop_drop, h4]

/-- Claim C7: flattening the regrouped blocks of a path of length exactly `4*N`
reproduces the path unchanged. -/
theorem C7_roundtrip (p : List Point) (N : ℕ) (h : p.length = 4 * N) :
    outer_path_from_turns (inner_turns_from_inner_path p N) = .ok p := by
  induction N generalizing p with
  | zero =>
    have hp : p = [] := List.length_eq_zero.mp (by omega)
    subst hp; rfl
  | succ n ih =>
    rcases p with _ | ⟨a, _ | ⟨b, _ | ⟨c, _ | ⟨d, rest⟩⟩⟩⟩
    · simp at h
    · simp at h; omega
    · simp at h; omega
    · simp at h; omega
    · rw [inner_turns_succ,
        show (a :: b :: c :: d :: rest).take 4 = [a, b, c, d] from rfl,
        show (a :: b :: c :: d :: rest).drop 4 = rest from rfl]
      have hrest : rest.length = 4 * n := by simp at h; omega
      simp [outer_path_from_turns, ih rest hrest]

/-- Claim C7 (witness): the round trip on a concrete 8-point path with `N=2`. -/
theorem C7_roundtrip_witness :
    ([((0:ℚ), (0:ℚ)), (0, 10), (10, 10), (10, 0), (2, 0), (2, 8), (8, 8), (8, 2)] :
        List Point).length = 4 * 2 ∧
    outer_path_from_turns (inner_turns_from_inner_path
        [((0:ℚ), (0:ℚ)), (0, 10), (10, 10), (10, 0), (2, 0), (2, 8), (8, 8), (8, 2)] 2) =
      .ok [((0:ℚ), (0:ℚ)), (0, 10), (10, 10), (10, 0), (2, 0), (2, 8), (8, 8), (8, 2)] :=
  ⟨by norm_num, C7_roundtrip _ 2 (by norm_num)⟩

/-- Helper: the vertex-reconstruction loop emits one point per remaining
offset segment plus the final end point. -/
lemma innerFromSegs_length (s : Seg) (l : List Seg) :
    (innerFromSegs s l).length = l.length + 1 := by
  induction l generalizing s with
  | nil => rfl
  | cons t r ih => simp [innerFromSegs, ih]

/-- Helper: on a non-empty path, a successful segment loop returns one segment
per consecutive pair of points. -/
lemma segsOf_ok_length (w : ℚ) :
    ∀ (p : List Point) (l : List Seg), 1 ≤ p.length → segsOf w p = .ok l →
      l.length + 1 = p.length := by
  intro p
  induction p with
  | nil => intro l h; simp at h
  | cons a q ih =>
    intro l _ hs
    rcases q with _ | ⟨b, rest⟩
    · simp [segsOf] at hs
      simp [← hs]
    · rw [segsOf] at hs
      cases hm : mkSeg w a b with
      | error e => rw [hm] at hs; simp at hs
      | ok s =>
        rw [hm] at hs
        cases hrec : segsOf w (b :: rest) with
        | error e => rw [hrec] at hs; simp at hs
        | ok tl =>
          rw [hrec] at hs
          simp at hs
          have h2 := ih tl (by simp) hrec
          rw [← hs]
          simp at h2 ⊢
          omega

/-- Claim C5: when `inner_path_from_outer` does not raise, the inner path has
exactly the input's length for inputs of length at least 2, and inputs of
length 0 or 1 yield the empty list without raising. -/
theorem C5_length_preservation (p : List Point) (w : ℚ) :
    (p.length < 2 → inner_path_from_outer p w = .ok []) ∧
    ∀ out, inner_path_from_outer p w = .ok out → 2 ≤ p.length →
      out.length = p.length := by
  constructor
  · intro h; rw [inner_path_from_outer, if_pos h]
  · intro out hout hlen
    rw [inner_path_from_outer, if_neg (by omega)] at hout
    cases hs : segsOf w p with
    | error e => rw [hs] at hout; simp at hout
    | ok l =>
      rw [hs] at hout
      have hl := segsOf_ok_length w p l (by omega) hs
      cases l with
      | nil => simp at hl; omega
      | cons s rest =>
        simp at hout
        rw [← hout]
        simp [innerFromSegs_length]
        simp at hl
        omega

/-- Claim C5 (witness): a concrete 4-point path whose inner offset also has 4
points. -/
theorem C5_length_preservation_witness :
    inner_path_from_outer [((0:ℚ), (0:ℚ)), (0, 5), (5, 5), (5, 0)] 1 =
      .ok [((1:ℚ), (0:ℚ)), (1, 4), (4, 4), (4, 0)] ∧
    ([((1:ℚ), (0:ℚ)), (1, 4), (4, 4), (4, 0)] : List Point).length =
      ([((0:ℚ), (0:ℚ)), (0, 5), (5, 5), (5, 0)] : List Point).length := by
  have heval : inner_path_from_outer [((0:ℚ), (0:ℚ)), (0, 5), (5, 5), (5, 0)] 1 =
      .ok [((1:ℚ), (0:ℚ)), (1, 4), (4, 4), (4, 0)] := by
    norm_num [inner_path_from_outer, segsOf, mkSeg, eps, innerFromSegs, joinVertex]
    simp
  exact ⟨heval, (C5_length_preservation _ 1).2 _ heval (by norm_num)⟩

/-- Claim C6: for a non-empty outer path of length `4*N` (first point `p`) and
a non-empty inner path of length `4*N`, the assembled export sequence is
`outer ++ [p]` (length `4*N+1`) without the inner path, and
`outer ++ reverse inner ++ [p]` (length `8*N+1`) with it. -/
theorem C6_export_assembly (outer_path inner_path : List Point) (N : ℕ) (hN : 1 ≤ N)
    (ho : outer_path.length = 4 * N) (hi : inner_path.length = 4 * N)
    (p : Point) (hp : outer_path.head? = some p) :
    assemble_export outer_path inner_path false = outer_path ++ [p] ∧
    (assemble_export outer_path inner_path false).length = 4 * N + 1 ∧
    assemble_export outer_path inner_path true = outer_path ++ inner_path.reverse ++ [p] ∧
    (assemble_export outer_path inner_path true).length = 8 * N + 1 := by
  have hinner : inner_path ≠ [] := by
    intro h; rw [h] at hi; simp at hi; omega
  rcases outer_path with _ | ⟨q, rest⟩
  · simp at hp
  · have hq : q = p := by simpa using hp
    rw [← hq]
    have h1 : assemble_export (q :: rest) inner_path false = (q :: rest) ++ [q] := by
      simp [assemble_export]
    have h2 : assemble_export (q :: rest) inner_path true =
        (q :: rest) ++ inner_path.reverse ++ [q] := by
      simp [assemble_export, hinner]
    refine ⟨h1, ?_, h2, ?_⟩
    · rw [h1]; simp at ho ⊢; omega
    · rw [h2]; simp at ho hi ⊢; omega

/-- Claim C6 (witness): the concrete 8-point outer and inner paths of the
`Lx=10, By=10, width=1, gap=1, N=2` coil. -/
theorem C6_export_assembly_witness :
    assemble_export [((0:ℚ), (0:ℚ)), (0, 10), (10, 10), (10, 0), (2, 0), (2, 8), (8, 8), (8, 2)]
        [((1:ℚ), (0:ℚ)), (1, 9), (9, 9), (9, 1), (3, 1), (3, 7), (7, 7), (7, 2)] false =
      [((0:ℚ), (0:ℚ)), (0, 10), (10, 10), (10, 0), (2, 0), (2, 8), (8, 8), (8, 2)] ++
        [((0:ℚ), (0:ℚ))] ∧
    (assemble_export [((0:ℚ), (0:ℚ)), (0, 10), (10, 10), (10, 0), (2, 0), (2, 8), (8, 8), (8, 2)]
        [((1:ℚ), (0:ℚ)), (1, 9), (9, 9), (9, 1), (3, 1), (3, 7), (7, 7), (7, 2)] false).length =
      4 * 2 + 1 ∧
    assemble_export [((0:ℚ), (0:ℚ)), (0, 10), (10, 10), (10, 0), (2, 0), (2, 8), (8, 8), (8, 2)]
        [((1:ℚ), (0:ℚ)), (1, 9), (9, 9), (9, 1), (3, 1), (3, 7), (7, 7), (7, 2)] true =
      [((0:ℚ), (0:ℚ)), (0, 10), (10, 10), (10, 0), (2, 0), (2, 8), (8, 8), (8, 2)] ++
        [((1:ℚ), (0:ℚ)), (1, 9), (9, 9), (9, 1), (3, 1), (3, 7), (7, 7), (7, 2)].reverse ++
        [((0:ℚ), (0:ℚ))] ∧
    (assemble_export [((0:ℚ), (0:ℚ)), (0, 10), (10, 10), (10, 0), (2, 0), (2, 8), (8, 8), (8, 2)]
        [((1:ℚ), (0:ℚ)), (1, 9), (9, 9), (9, 1), (3, 1), (3, 7), (7, 7), (7, 2)] true).length =
      8 * 2 + 1 :=
  C6_export_assembly _ _ 2 (by norm_num) (by norm_num) (by norm_num) ((0:ℚ), (0:ℚ)) rfl

/-- Helper for C3: a successfully validated segment is exactly the spec's
offset segment. -/
lemma mkSeg_ok_eq_spec (w : ℚ) (a b : Point) (s : Seg) (h : mkSeg w a b = .ok s) :
    s = specOffsetSeg w a b := by
  unfold mkSeg at h
  unfold specOffsetSeg
  split_ifs at h ⊢ <;> simp_all <;> split_ifs at h <;> simp_all

/-- Helper for C4 and C9: `mkSeg` never succeeds on an invalid segment, and
the validation conditions of a successful segment fail. -/
lemma mkSeg_ok_conds (w : ℚ) (a b : Point) (s : Seg) (h : mkSeg w a b = .ok s) :
    ¬(eps < |b.1 - a.1| ∧ eps < |b.2 - a.2|) ∧
    ¬(|b.1 - a.1| < eps ∧ |b.2 - a.2| < eps) := by
  simp only [mkSeg] at h
  split_ifs at h with h1 h2 <;> simp_all

/-- Helper for C4: the error returned by `mkSeg` is decided by the two checks,
non-axis-alignment first. -/
lemma mkSeg_error_iff (w : ℚ) (a b : Point) (e : CoilError) :
    mkSeg w a b = .error e ↔
      ((eps < |b.1 - a.1| ∧ eps < |b.2 - a.2|) ∧ e = .nonAxisAligned) ∨
      (¬(eps < |b.1 - a.1| ∧ eps < |b.2 - a.2|) ∧
        (|b.1 - a.1| < eps ∧ |b.2 - a.2| < eps) ∧ e = .degenerate) := by
  simp only [mkSeg]
  split_ifs with h1 h2 <;> simp_all
  · exact eq_comm
  · constructor
    · intro hh
      exact Or.inr hh.symm
    · intro hh
      rcases hh with ⟨hc, _⟩ | hh
      · exact absurd (h1 hc.1) (not_le.mpr hc.2)
      · exact hh.symm

/-- Helper for C3: a successful segment loop returns exactly the spec's offset
segments of the consecutive point pairs. -/
lemma segsOf_ok_eq_map (w : ℚ) :
    ∀ (p : List Point) (l : List Seg), segsOf w p = .ok l →
      l = (p.zip p.tail).map (fun ab => specOffsetSeg w ab.1 ab.2) := by
  intro p
  induction p with
  | nil => intro l h; simp [segsOf] at h; simp [← h]
  | cons a q ih =>
    intro l h
    rcases q with _ | ⟨b, rest⟩
    · simp [segsOf] at h; simp [← h]
    · rw [segsOf] at h
      cases hm : mkSeg w a b with
      | error e => rw [hm] at h; simp at h
      | ok s =>
        rw [hm] at h
        cases hrec : segsOf w (b :: rest) with
        | error e => rw [hrec] at h; simp at h
        | ok tl =>
          rw [hrec] at h
          simp at h
          have htl := ih tl hrec
          have hse := mkSeg_ok_eq_spec w a b s hm
          simp [← h, hse, htl]

/-- Helper for C3: the corner rule of the code agrees with the spec's corner
rule. -/
lemma joinVertex_eq_specCorner (s t : Seg) : joinVertex s t = specCorner s t := by
  rcases s with ⟨sp1, sp2, sori⟩
  rcases t with ⟨tp1, tp2, tori⟩
  cases sori <;> cases tori <;> simp [joinVertex, specCorner]

/-- Helper for C3: the vertex walk of the code agrees with the spec's walk. -/
lemma innerFromSegs_eq_specJoin (s : Seg) (l : List Seg) :
    innerFromSegs s l = specJoin s l := by
  induction l generalizing s with
  | nil => rfl
  | cons t r ih => simp [innerFromSegs, specJoin, ih, joinVertex_eq_specCorner]

/-- Claim C3: whenever `inner_path_from_outer` succeeds on a path of length at
least two, its result is exactly the spec-described construction: every
segment translated by the right-hand-of-travel offset, interior vertices taken
as (vertical segment's x, horizontal segment's y) for mixed orientations and
as the later segment's start for equal orientations, with the first offset
start prepended and the last offset end appended. -/
theorem C3_offset_refinement (p : List Point) (w : ℚ) (out : List Point)
    (hlen : 2 ≤ p.length) (h : inner_path_from_outer p w = .ok out) :
    out = offset_inner_spec w p := by
  rw [inner_path_from_outer, if_neg (by omega)] at h
  cases hs : segsOf w p with
  | error e => rw [hs] at h; simp at h
  | ok l =>
    rw [hs] at h
    have hmap := segsOf_ok_eq_map w p l hs
    cases l with
    | nil =>
      have := segsOf_ok_length w p [] (by omega) hs
      simp at this
      omega
    | cons s rest =>
      simp at h
      rw [offset_inner_spec, ← hmap, ← h, innerFromSegs_eq_specJoin]

/-- Claim C3 (witness): the concrete two-turn spiral path offset by width 1. -/
theorem C3_offset_refinement_witness :
    inner_path_from_outer
        [((0:ℚ), (0:ℚ)), (0, 10), (10, 10), (10, 0), (2, 0), (2, 8), (8, 8), (8, 2)] 1 =
      .ok [((1:ℚ), (0:ℚ)), (1, 9), (9, 9), (9, 1), (3, 1), (3, 7), (7, 7), (7, 2)] ∧
    [((1:ℚ), (0:ℚ)), (1, 9), (9, 9), (9, 1), (3, 1), (3, 7), (7, 7), (7, 2)] =
      offset_inner_spec 1
        [((0:ℚ), (0:ℚ)), (0, 10), (10, 10), (10, 0), (2, 0), (2, 8), (8, 8), (8, 2)] := by
  have heval : inner_path_from_outer
      [((0:ℚ), (0:ℚ)), (0, 10), (10, 10), (10, 0), (2, 0), (2, 8), (8, 8), (8, 2)] 1 =
      .ok [((1:ℚ), (0:ℚ)), (1, 9), (9, 9), (9, 1), (3, 1), (3, 7), (7, 7), (7, 2)] := by
    norm_num [inner_path_from_outer, segsOf, mkSeg, eps, innerFromSegs, joinVertex]
    simp
  exact ⟨heval, C3_offset_refinement _ 1 _ (by norm_num) heval⟩

/-- Claim C4 (counterexample): the path `(0,0), (0,0), (1,1)` contains the
segment `(0,0)` to `(1,1)`, which changes both coordinates by more than the
epsilon — yet the offsetter raises the zero-length error, not the
non-axis-aligned one, because the degenerate first segment is checked first. -/
theorem C4_counterexample :
    inner_path_from_outer [((0:ℚ), (0:ℚ)), ((0:ℚ), (0:ℚ)), ((1:ℚ), (1:ℚ))] 1 =
      .error .degenerate ∧
    bothChange ((0:ℚ), (0:ℚ)) ((1:ℚ), (1:ℚ)) := by
  constructor
  · norm_num [inner_path_from_outer, segsOf, mkSeg, eps]
  · norm_num [bothChange, eps]

/-- Helper for C4: the segment loop errors exactly as the first-error scan
predicts. -/
lemma segsOf_error_iff (w : ℚ) :
    ∀ (p : List Point) (e : CoilError),
      segsOf w p = .error e ↔ firstSegError p = some e := by
  intro p
  induction p with
  | nil => intro e; simp [segsOf, firstSegError]
  | cons a q ih =>
    intro e
    rcases q with _ | ⟨b, rest⟩
    · simp [segsOf, firstSegError]
    · rw [segsOf, firstSegError]
      cases hm : mkSeg w a b with
      | error e2 =>
        rcases (mkSeg_error_iff w a b e2).mp hm with ⟨hc, rfl⟩ | ⟨hn, hc, rfl⟩
        · rw [if_pos hc]
          simp
        · rw [if_neg hn, if_pos hc]
          simp
      | ok s =>
        obtain ⟨hn1, hn2⟩ := mkSeg_ok_conds w a b s hm
        rw [if_neg hn1, if_neg hn2]
        have hrec := ih e
        cases hs : segsOf w (b :: rest) with
        | error e2 =>
          rw [hs] at hrec
          simpa using hrec
        | ok tl =>
          rw [hs] at hrec
          simp at hrec
          simp [hrec]

/-- Claim C4 (amended): `inner_path_from_outer` raises the error determined by
the earliest invalid consecutive pair (non-axis-aligned if that pair changes
both coordinates by more than `1e-12`, degenerate if it changes neither by at
least `1e-12`), and raises nothing when every pair is valid; an error carries
no partial result. -/
theorem C4_amended_first_error (p : List Point) (w : ℚ) (e : CoilError) :
    inner_path_from_outer p w = .error e ↔ firstSegError p = some e := by
  rw [inner_path_from_outer]
  split_ifs with h
  · rcases p with _ | ⟨a, _ | ⟨b, q⟩⟩
    · simp [firstSegError]
    · simp [firstSegError]
    · simp at h
      exact absurd h (by omega)
  · have hiff := segsOf_error_iff w p e
    cases hs : segsOf w p with
    | error e2 =>
      rw [hs] at hiff
      simpa using hiff
    | ok l =>
      rw [hs] at hiff
      simp at hiff
      cases l with
      | nil => simp [hiff]
      | cons s rest => simp [hiff]

/-- Claim C4 (witness): a single diagonal segment raises the non-axis-aligned
error, as the first-error scan predicts. -/
theorem C4_amended_first_error_witness :
    inner_path_from_outer [((0:ℚ), (0:ℚ)), ((1:ℚ), (1:ℚ))] 1 = .error .nonAxisAligned :=
  (C4_amended_first_error [((0:ℚ), (0:ℚ)), ((1:ℚ), (1:ℚ))] 1 .nonAxisAligned).mpr
    (by norm_num [firstSegError, eps])

/-- Helper: every turn consists of exactly four corner points. -/
lemma turnCorners_length (Lx By d : ℚ) (t : ℕ) : (turnCorners Lx By d t).length = 4 := by
  unfold turnCorners
  split_ifs <;> simp

/-- Helper for C9: flattening a list of well-formed (4-point) turns never
raises and concatenates the turns. -/
lemma outer_ok_of_all4 :
    ∀ L : List (List Point), (∀ l ∈ L, l.length = 4) →
      outer_path_from_turns L = .ok L.flatten := by
  intro L
  induction L with
  | nil => intro _; rfl
  | cons hd tl ih =>
    intro h
    have h4 : hd.length = 4 := h hd (by simp)
    have htl : outer_path_from_turns tl = .ok tl.flatten :=
      ih (fun l hl => h l (by simp [hl]))
    rcases hd with _ | ⟨a, _ | ⟨b, _ | ⟨c, _ | ⟨d, _ | ⟨e, r⟩⟩⟩⟩⟩
    · simp at h4
    · simp at h4
    · simp at h4
    · simp at h4
    · simp [outer_path_from_turns, htl]
    · simp at h4

/-- Helper: a vertical-step pair with the same x is good once the y-step
clears the epsilon. -/
lemma goodPair_vert {x ya yb : ℚ} (h : eps < |yb - ya|) : goodPair (x, ya) (x, yb) :=
  Or.inl ⟨rfl, h⟩

/-- Helper: a horizontal-step pair with the same y is good once the x-step
clears the epsilon. -/
lemma goodPair_horiz {xa xb y : ℚ} (h : eps < |xb - xa|) : goodPair (xa, y) (xb, y) :=
  Or.inr ⟨rfl, h⟩

lemma eps_lt_abs_of_lt {x y : ℚ} (h : eps < y - x) : eps < |y - x| :=
  lt_of_lt_of_le h (le_abs_self _)

lemma eps_lt_abs_of_gt {x y : ℚ} (h : eps < x - y) : eps < |y - x| := by
  have h2 : eps < -(y - x) := by linarith
  exact lt_of_lt_of_le h2 (neg_le_abs _)

/-- Helper for C9: under the margin preconditions every single turn is a
chain of good (axis-aligned, epsilon-clearing) steps. -/
lemma chain_turnCorners (Lx By d : ℚ) (N k : ℕ) (hk : k < N) (hd : 0 < d)
    (hBy : eps + 2 * ((N : ℚ) - 1) * d < By)
    (hLx : eps + (2 * (N : ℚ) - 1) * d < Lx) :
    List.Chain' goodPair (turnCorners Lx By d (k + 1)) := by
  have hNQ : (1 : ℚ) ≤ (N : ℚ) := by exact_mod_cast Nat.one_le_iff_ne_zero.mpr (by omega)
  have hkQ : (k : ℚ) + 1 ≤ (N : ℚ) := by exact_mod_cast hk
  have heps := eps_pos
  rcases Nat.eq_zero_or_pos k with rfl | hkpos
  · unfold turnCorners
    rw [if_pos rfl]
    refine List.chain'_cons.mpr ⟨?_, List.chain'_cons.mpr ⟨?_,
      List.chain'_cons.mpr ⟨?_, List.chain'_singleton _⟩⟩⟩
    · refine goodPair_vert (eps_lt_abs_of_lt ?_)
      nlinarith [mul_nonneg (show (0:ℚ) ≤ 2 * ((N:ℚ) - 1) by linarith) hd.le]
    · refine goodPair_horiz (eps_lt_abs_of_lt ?_)
      nlinarith [mul_nonneg (show (0:ℚ) ≤ 2 * (N:ℚ) - 1 by linarith) hd.le]
    · refine goodPair_vert (eps_lt_abs_of_gt ?_)
      nlinarith [mul_nonneg (show (0:ℚ) ≤ 2 * ((N:ℚ) - 1) by linarith) hd.le]
  · have hk1Q : (1 : ℚ) ≤ (k : ℚ) := by exact_mod_cast hkpos
    unfold turnCorners
    rw [if_neg (by omega)]
    simp only [Nat.add_sub_cancel]
    refine List.chain'_cons.mpr ⟨?_, List.chain'_cons.mpr ⟨?_,
      List.chain'_cons.mpr ⟨?_, List.chain'_singleton _⟩⟩⟩
    · refine goodPair_vert (eps_lt_abs_of_lt ?_)
      nlinarith [mul_nonneg (show (0:ℚ) ≤ 2 * (N:ℚ) - 1 - 2 * (k:ℚ) by linarith) hd.le]
    · refine goodPair_horiz (eps_lt_abs_of_lt ?_)
      nlinarith [mul_nonneg (show (0:ℚ) ≤ 2 * (N:ℚ) - 1 - 2 * (k:ℚ) by linarith) hd.le]
    · refine goodPair_vert (eps_lt_abs_of_gt ?_)
      nlinarith [mul_nonneg (show (0:ℚ) ≤ 2 * (N:ℚ) - 2 - 2 * (k:ℚ) by linarith) hd.le]

lemma turnCorners_head_big (Lx By d : ℚ) (k : ℕ) (hk : 1 ≤ k) :
    (turnCorners Lx By d (k + 1)).head? = some ((k : ℚ) * d, ((k : ℚ) - 1) * d) := by
  unfold turnCorners
  rw [if_neg (by omega)]
  simp [Nat.add_sub_cancel]

lemma turnCorners_getLast_one (Lx By d : ℚ) :
    (turnCorners Lx By d 1).getLast? = some (Lx, (0 : ℚ)) := by
  unfold turnCorners
  simp

lemma turnCorners_getLast_big (Lx By d : ℚ) (k : ℕ) (hk : 2 ≤ k) :
    (turnCorners Lx By d k).getLast? = some (Lx - ((k : ℚ) - 1) * d, ((k : ℚ) - 1) * d) := by
  unfold turnCorners
  rw [if_neg (by omega)]
  have hc : ((k - 1 : ℕ) : ℚ) = (k : ℚ) - 1 := by
    push_cast [Nat.cast_sub (by omega : 1 ≤ k)]
    ring
  simp [hc]

/-- Helper for C9: the last point of the flattened first `M` turns is the last
point of turn `M`. -/
lemma spiral_getLast (Lx By d : ℚ) (M : ℕ) (hM : 1 ≤ M) :
    (((List.range M).map (fun k => turnCorners Lx By d (k + 1))).flatten).getLast? =
      (turnCorners Lx By d M).getLast? := by
  obtain ⟨M2, rfl⟩ : ∃ M2, M = M2 + 1 := ⟨M - 1, by omega⟩
  rw [List.range_succ, List.map_append, List.flatten_append]
  simp only [List.map_cons, List.map_nil, List.flatten_cons, List.flatten_nil, List.append_nil]
  rw [List.getLast?_append_of_ne_nil]
  intro hnil
  have := turnCorners_length Lx By d (M2 + 1)
  rw [hnil] at this
  simp at this

/-- Helper for C9: the connecting step from the last corner of turn `M` to the
first corner of turn `M+1` is a good horizontal step (this is where the
asymmetric `i-1` index of the bottom-left corner matters). -/
lemma connector_good (Lx By d : ℚ) (N M : ℕ) (hM : 1 ≤ M) (hMN : M + 1 ≤ N) (hd : 0 < d)
    (hBy : eps + 2 * ((N : ℚ) - 1) * d < By)
    (hLx : eps + (2 * (N : ℚ) - 1) * d < Lx) :
    ∀ x ∈ (turnCorners Lx By d M).getLast?, ∀ y ∈ (turnCorners Lx By d (M + 1)).head?,
      goodPair x y := by
  intro x hx y hy
  have hNQ : (M : ℚ) + 1 ≤ (N : ℚ) := by exact_mod_cast hMN
  rw [turnCorners_head_big Lx By d M hM] at hy
  simp only [Option.mem_def, Option.some.injEq] at hy
  rcases Nat.lt_or_ge M 2 with hM1 | hM2
  · have hM1' : M = 1 := by omega
    subst hM1'
    rw [turnCorners_getLast_one] at hx
    simp only [Option.mem_def, Option.some.injEq] at hx
    subst hx
    subst hy
    refine Or.inr ⟨?_, ?_⟩
    · show (0 : ℚ) = (((1:ℕ) : ℚ) - 1) * d
      push_cast
      ring
    · show eps < |((1:ℕ) : ℚ) * d - Lx|
      apply eps_lt_abs_of_gt
      push_cast
      nlinarith [mul_nonneg (show (0:ℚ) ≤ 2 * (N:ℚ) - 2 by linarith) hd.le]
  · have hMQ : (2 : ℚ) ≤ (M : ℚ) := by exact_mod_cast hM2
    rw [turnCorners_getLast_big Lx By d M hM2] at hx
    simp only [Option.mem_def, Option.some.injEq] at hx
    subst hx
    subst hy
    refine Or.inr ⟨rfl, ?_⟩
    show eps < |(M : ℚ) * d - (Lx - ((M : ℚ) - 1) * d)|
    apply eps_lt_abs_of_gt
    nlinarith [mul_nonneg (show (0:ℚ) ≤ 2 * (N:ℚ) - 2 * (M:ℚ) by linarith) hd.le]

/-- Helper for C9: the whole flattened spiral is a chain of good steps. -/
lemma chain_spiral (Lx By d : ℚ) (N : ℕ) (hd : 0 < d)
    (hBy : eps + 2 * ((N : ℚ) - 1) * d < By)
    (hLx : eps + (2 * (N : ℚ) - 1) * d < Lx) :
    ∀ M, M ≤ N →
      List.Chain' goodPair
        (((List.range M).map (fun k => turnCorners Lx By d (k + 1))).flatten) := by
  intro M
  induction M with
  | zero => intro _; simp
  | succ M2 ih =>
    intro hM
    rw [List.range_succ, List.map_append, List.flatten_append, List.chain'_append]
    refine ⟨ih (by omega), ?_, ?_⟩
    · simp only [List.map_cons, List.map_nil, List.flatten_cons, List.flatten_nil,
        List.append_nil]
      exact chain_turnCorners Lx By d N M2 (by omega) hd hBy hLx
    · intro x hx y hy
      rcases Nat.eq_zero_or_pos M2 with rfl | hpos
      · simp at hx
      · rw [spiral_getLast Lx By d M2 hpos] at hx
        simp only [List.map_cons, List.map_nil, List.flatten_cons, List.flatten_nil,
          List.append_nil] at hy
        exact connector_good Lx By d N M2 hpos (by omega) hd hBy hLx x hx y hy

/-- Helper for C9: a good pair always passes the segment validation. -/
lemma mkSeg_ok_of_goodPair (w : ℚ) (a b : Point) (h : goodPair a b) :
    ∃ s, mkSeg w a b = .ok s := by
  have heps := eps_pos
  simp only [mkSeg]
  rcases h with ⟨hx, hy⟩ | ⟨hy, hx⟩
  · have hdx : b.1 - a.1 = 0 := by rw [hx, sub_self]
    have hz : |b.1 - a.1| < eps := by rw [hdx]; simpa using heps
    have hnc1 : ¬(eps < |b.1 - a.1| ∧ eps < |b.2 - a.2|) := by
      rintro ⟨hc1, _⟩
      exact absurd hc1 (not_lt.mpr hz.le)
    have hnc2 : ¬(|b.1 - a.1| < eps ∧ |b.2 - a.2| < eps) := by
      rintro ⟨_, hc2⟩
      exact absurd hc2 (not_lt.mpr hy.le)
    rw [if_neg hnc1, if_neg hnc2, if_pos hz]
    exact ⟨_, rfl⟩
  · have hdy : b.2 - a.2 = 0 := by rw [hy, sub_self]
    have hz : |b.2 - a.2| < eps := by rw [hdy]; simpa using heps
    have hnx : ¬ |b.1 - a.1| < eps := not_lt.mpr hx.le
    have hnc1 : ¬(eps < |b.1 - a.1| ∧ eps < |b.2 - a.2|) := by
      rintro ⟨_, hc2⟩
      exact absurd hc2 (not_lt.mpr hz.le)
    have hnc2 : ¬(|b.1 - a.1| < eps ∧ |b.2 - a.2| < eps) := by
      rintro ⟨hc1, _⟩
      exact absurd hc1 hnx
    rw [if_neg hnc1, if_neg hnc2, if_neg hnx]
    exact ⟨_, rfl⟩

/-- Helper for C9: the segment loop succeeds on every good chain. -/
lemma segsOf_ok_of_chain (w : ℚ) :
    ∀ p : List Point, List.Chain' goodPair p → ∃ l, segsOf w p = .ok l := by
  intro p
  induction p with
  | nil => intro _; exact ⟨[], rfl⟩
  | cons a q ih =>
    intro hc
    rcases q with _ | ⟨b, rest⟩
    · exact ⟨[], rfl⟩
    · have hab : goodPair a b := (List.chain'_cons.mp hc).1
      obtain ⟨s, hs⟩ := mkSeg_ok_of_goodPair w a b hab
      obtain ⟨tl, htl⟩ := ih (List.chain'_cons.mp hc).2
      exact ⟨s :: tl, by simp [segsOf, hs, htl]⟩

/-- Helper for C9: the offsetter succeeds on every good chain. -/
lemma inner_ok_of_chain (p : List Point) (w : ℚ) (h : List.Chain' goodPair p) :
    ∃ q, inner_path_from_outer p w = .ok q := by
  rw [inner_path_from_outer]
  split_ifs with hlen
  · exact ⟨[], rfl⟩
  · obtain ⟨l, hl⟩ := segsOf_ok_of_chain w p h
    rw [hl]
    cases l with
    | nil => exact ⟨[], rfl⟩
    | cons s rest => exact ⟨_, rfl⟩

/-- Claim C9: with `width+gap > 0`, `By > 0`, `Lx > (2N-1)*(width+gap)`,
`By > 2(N-1)*(width+gap)` and the amounts clearing the epsilon (formalised as
the two margin hypotheses), every consecutive pair of the flattened outer path
differs in exactly one coordinate by more than `1e-12`, so the offsetter
reaches no error branch; moreover the spec-level degeneracy test is strictly
weaker: the spec-valid configuration `Lx=10, By=2, width=1, gap=0, N=2` (with
`By = 2*i*(width+gap)` at `i=1`) still produces a zero-length `P3`-to-`P4`
segment and a degeneracy error. -/
theorem C9_segments_valid (Lx By w g : ℚ) (N : ℕ) (hN : 1 ≤ N)
    (hd : 0 < w + g) (hBy0 : 0 < By)
    (hLxN : (2 * (N : ℚ) - 1) * (w + g) < Lx)
    (hByN : 2 * ((N : ℚ) - 1) * (w + g) < By)
    (hByEps : eps + 2 * ((N : ℚ) - 1) * (w + g) < By)
    (hLxEps : eps + (2 * (N : ℚ) - 1) * (w + g) < Lx)
    (p : List Point)
    (hp : outer_path_from_turns (compute_coords Lx By N w g) = .ok p) :
    List.Chain' goodPair p ∧ (∃ q, inner_path_from_outer p w = .ok q) ∧
    ((1 : ℚ) * (1 + 0) < 10 - 1 * (1 + 0) ∧ ((1 : ℚ) - 1) * (1 + 0) < 2 - 1 * (1 + 0)) ∧
    (outer_path_from_turns (compute_coords 10 2 2 1 0)).bind
      (fun r => inner_path_from_outer r 1) = .error .degenerate := by
  have hall : ∀ l ∈ compute_coords Lx By N w g, l.length = 4 := by
    intro l hl
    rw [compute_coords] at hl
    simp at hl
    obtain ⟨k, _, rfl⟩ := hl
    exact turnCorners_length Lx By (w + g) (k + 1)
  have hok := outer_ok_of_all4 (compute_coords Lx By N w g) hall
  rw [hp] at hok
  have hpj : p = (compute_coords Lx By N w g).flatten := by simpa using hok
  subst hpj
  have hchain : List.Chain' goodPair ((compute_coords Lx By N w g).flatten) := by
    rw [compute_coords]
    exact chain_spiral Lx By (w + g) N hd hByEps hLxEps N le_rfl
  refine ⟨hchain, inner_ok_of_chain _ w hchain, ⟨by norm_num, by norm_num⟩, ?_⟩
  have houter : outer_path_from_turns (compute_coords 10 2 2 1 0) =
      .ok [((0:ℚ), (0:ℚ)), (0, 2), (10, 2), (10, 0), (1, 0), (1, 1), (9, 1), (9, 1)] := by
    norm_num [compute_coords, turnCorners, List.range_succ, outer_path_from_turns]
  rw [houter]
  show inner_path_from_outer
    [((0:ℚ), (0:ℚ)), (0, 2), (10, 2), (10, 0), (1, 0), (1, 1), (9, 1), (9, 1)] 1 =
      .error .degenerate
  norm_num [inner_path_from_outer, segsOf, mkSeg, eps]

/-- Claim C9 (witness): the `Lx=10, By=10, width=1, gap=1, N=2` coil, whose
flattened outer path is a good chain and whose inner offset succeeds. -/
theorem C9_segments_valid_witness :
    List.Chain' goodPair
      [((0:ℚ), (0:ℚ)), (0, 10), (10, 10), (10, 0), (2, 0), (2, 8), (8, 8), (8, 2)] ∧
    (∃ q, inner_path_from_outer
      [((0:ℚ), (0:ℚ)), (0, 10), (10, 10), (10, 0), (2, 0), (2, 8), (8, 8), (8, 2)] 1 =
        .ok q) ∧
    ((1 : ℚ) * (1 + 0) < 10 - 1 * (1 + 0) ∧ ((1 : ℚ) - 1) * (1 + 0) < 2 - 1 * (1 + 0)) ∧
    (outer_path_from_turns (compute_coords 10 2 2 1 0)).bind
      (fun r => inner_path_from_outer r 1) = .error .degenerate := by
  have hp : outer_path_from_turns (compute_coords 10 10 2 1 1) =
      .ok [((0:ℚ), (0:ℚ)), (0, 10), (10, 10), (10, 0), (2, 0), (2, 8), (8, 8), (8, 2)] := by
    norm_num [compute_coords, turnCorners, List.range_succ, outer_path_from_turns]
  exact C9_segments_valid 10 10 1 1 2 (by norm_num) (by norm_num) (by norm_num)
    (by norm_num) (by norm_num) (by norm_num [eps]) (by norm_num [eps]) _ hp

end Coil
